import Mathlib

/-!
Shallow embedding of the hybrid-product-search reranking core
(`src/reranker/services/feature_extractor.py`, `src/reranker/services/reranker.py`,
candidate record from `src/reranker/web/api/rerank/schema.py`).

Python floats are modelled as real numbers, Python `dict[str, float]` weight maps
as association lists, and a call that raises a runtime exception (division by
zero) as `Option.none`.
-/

namespace HybridSearch

open Real

/-- Candidate item for reranking (schema.py `Candidate`). `score` is `None`
before scoring. -/
structure Candidate where
  id : String
  title : String
  description : String
  category : String
  price : ℝ
  rating : ℝ
  num_reviews : ℤ
  score : Option ℝ

/-- Model of Python `str.split()` (no argument): split on runs of whitespace,
producing no empty tokens. `cur` accumulates the current token in reverse. -/
def splitWsAux : List Char → List Char → List String
  | [], cur => if cur = [] then [] else [String.mk cur.reverse]
  | c :: rest, cur =>
    if c.isWhitespace then
      if cur = [] then splitWsAux rest []
      else String.mk cur.reverse :: splitWsAux rest []
    else splitWsAux rest (c :: cur)

/-- `FeatureExtractor._tokenize`: `text.lower().split()` — lower-case, split on
whitespace runs, drop empty tokens. -/
def tokenize (text : String) : List String :=
  splitWsAux (text.data.map Char.toLower) []

/-- The document text of a candidate: `f"{candidate.title} {candidate.description}"`. -/
def docText (c : Candidate) : String :=
  c.title ++ " " ++ c.description

/-- Term frequency of `t` in a token list (`_compute_term_frequency` dict lookup). -/
def termFreq (terms : List String) (t : String) : ℕ :=
  terms.count t

/-- Document frequency of term `t` over a corpus: the number of candidates whose
tokenized title+description contains `t` at least once
(`_compute_idf` lines 64–71). -/
def docFreq (t : String) (cs : List Candidate) : ℕ :=
  cs.countP (fun c => decide (t ∈ tokenize (docText c)))

/-- The idf value assigned to a term with document frequency `df` over a corpus
of `n` documents (`_compute_idf` line 75):
`math.log((n_candidates - df + 0.5) / (df + 0.5) + 1)`. -/
noncomputable def compute_idf (n df : ℕ) : ℝ :=
  Real.log (((n : ℝ) - (df : ℝ) + 0.5) / ((df : ℝ) + 0.5) + 1)

/-- `FeatureExtractor._compute_text_match`: simple overlap score
`|query ∩ (title ∪ description)| / |query|` on term sets, `0.0` on empty
query-term set or empty title∪description set. -/
noncomputable def compute_text_match (c : Candidate) (query : String) : ℝ :=
  let query_terms := (tokenize query).toFinset
  let title_terms := (tokenize c.title).toFinset
  let desc_terms := (tokenize c.description).toFinset
  let all_terms := title_terms ∪ desc_terms
  if query_terms = ∅ ∨ all_terms = ∅ then 0
  else ((query_terms ∩ all_terms).card : ℝ) / (query_terms.card : ℝ)

/-- `FeatureExtractor._compute_bm25` with k1 = 1.5, b = 0.75. Falls back to
`compute_text_match` when the corpus is absent or has fewer than 2 candidates. -/
noncomputable def compute_bm25 (c : Candidate) (query : String)
    (all_candidates : Option (List Candidate)) : ℝ :=
  match all_candidates with
  | none => compute_text_match c query
  | some cs =>
    if cs.length < 2 then compute_text_match c query
    else
      let k1 : ℝ := 1.5
      let b : ℝ := 0.75
      let query_terms := tokenize query
      if query_terms = [] then 0
      else
        let corpus := cs.map (fun cand => tokenize (docText cand))
        let avgdl : ℝ := ((corpus.map (fun doc => (doc.length : ℝ))).sum) / (corpus.length : ℝ)
        let doc_terms := tokenize (docText c)
        let doc_len := doc_terms.length
        if doc_terms = [] then 0
        else
          (query_terms.map (fun t =>
            if 0 < termFreq doc_terms t then
              let tf : ℝ := (termFreq doc_terms t : ℝ)
              let idf_val := compute_idf cs.length (docFreq t cs)
              let numerator := tf * (k1 + 1)
              let denominator := tf + k1 * (1 - b + b * ((doc_len : ℝ) / avgdl))
              idf_val * (numerator / denominator)
            else 0)).sum

/-- `FeatureExtractor._normalize_price`: `1.0` for price ≤ 0, otherwise
`1 - log(price+1)/log(1001)` clamped into [0, 1]. -/
noncomputable def normalize_price (price : ℝ) : ℝ :=
  if price ≤ 0 then 1
  else max 0 (min 1 (1 - Real.log (price + 1) / Real.log (1000 + 1)))

/-- `FeatureExtractor._normalize_rating`: `rating / 5.0`. -/
noncomputable def normalize_rating (rating : ℝ) : ℝ :=
  rating / 5

/-- `FeatureExtractor._normalize_popularity`: `0.0` for num_reviews ≤ 0,
otherwise `min(1.0, log(num_reviews+1)/log(10001))`. -/
noncomputable def normalize_popularity (num_reviews : ℤ) : ℝ :=
  if num_reviews ≤ 0 then 0
  else min 1 (Real.log ((num_reviews : ℝ) + 1) / Real.log (10000 + 1))

/-- The feature dictionary produced by `FeatureExtractor.extract_features`:
it always holds exactly the keys `text_match`, `price`, `rating`, `popularity`. -/
structure FeatureVec where
  text_match : ℝ
  price : ℝ
  rating : ℝ
  popularity : ℝ

/-- `FeatureExtractor.extract_features`. -/
noncomputable def extract_features (c : Candidate) (query : String)
    (all_candidates : Option (List Candidate)) : FeatureVec :=
  { text_match := compute_bm25 c query all_candidates
    price := normalize_price c.price
    rating := normalize_rating c.rating
    popularity := normalize_popularity c.num_reviews }

/-- `features.get(feature_name, 0.0)` on the extracted feature dictionary:
unknown keys yield 0. -/
def featureGet (f : FeatureVec) (k : String) : ℝ :=
  if k = "text_match" then f.text_match
  else if k = "price" then f.price
  else if k = "rating" then f.rating
  else if k = "popularity" then f.popularity
  else 0

/-- Python `min(scores)` for a non-empty list (left fold; junk value 0 on `[]`,
which the caller never hits). -/
noncomputable def listMin : List ℝ → ℝ
  | [] => 0
  | x :: xs => xs.foldl min x

/-- Python `max(scores)` for a non-empty list (junk value 0 on `[]`). -/
noncomputable def listMax : List ℝ → ℝ
  | [] => 0
  | x :: xs => xs.foldl max x

open Classical in
/-- `Reranker._normalize_scores`: min-max normalization; `[]` on empty input and
all-0.5 when max = min. -/
noncomputable def normalize_scores (scores : List ℝ) : List ℝ :=
  match scores with
  | [] => []
  | _ :: _ =>
    let min_score := listMin scores
    let max_score := listMax scores
    if max_score = min_score then List.replicate scores.length 0.5
    else scores.map (fun s => (s - min_score) / (max_score - min_score))

/-- Python `round(x, 4)` modelled as rounding to the nearest multiple of 1/10000. -/
noncomputable def round4 (x : ℝ) : ℝ :=
  ((round (x * 10000) : ℤ) : ℝ) / 10000

/-- A Python `dict[str, float]` weight map, as an association list in insertion
order. -/
abbrev WeightMap := List (String × ℝ)

/-- The `Reranker` service: its only state is the default weight map set in
`Reranker.__init__`. -/
structure Reranker where
  default_weights : WeightMap

/-- The hard-coded fallback weights of `Reranker.__init__`. -/
def standardDefaultWeights : WeightMap :=
  [("text_match", 0.4), ("price", 0.2), ("rating", 0.2), ("popularity", 0.2)]

/-- `Reranker.__init__`: `self.default_weights = default_weights or {...}` —
`None` and the (falsy) empty dict both fall back to the hard-coded defaults. -/
def mkReranker : Option WeightMap → Reranker
  | none => ⟨standardDefaultWeights⟩
  | some [] => ⟨standardDefaultWeights⟩
  | some (p :: l) => ⟨p :: l⟩

/-- `active_weights = weights or self.default_weights` (line 36): `None` and the
falsy empty dict resolve to the default weights. -/
def resolveWeights (r : Reranker) : Option WeightMap → WeightMap
  | none => r.default_weights
  | some [] => r.default_weights
  | some (p :: l) => p :: l

/-- `total_weight = sum(active_weights.values())` (line 39). -/
def weightsTotal (w : WeightMap) : ℝ :=
  (w.map Prod.snd).sum

/-- `normalized_weights = {k: v / total_weight for k, v in active_weights.items()}`
(line 40). -/
noncomputable def normalizeWeights (w : WeightMap) : WeightMap :=
  w.map (fun p => (p.1, p.2 / weightsTotal w))

/-- `sum(features.get(feature_name, 0.0) * weight for feature_name, weight in
normalized_weights.items())` (lines 61–64). -/
noncomputable def weightedScore (nw : WeightMap) (f : FeatureVec) : ℝ :=
  (nw.map (fun p => featureGet f p.1 * p.2)).sum

/-- `candidate.score = v`. -/
def setScore (c : Candidate) (v : Option ℝ) : Candidate :=
  { c with score := v }

/-- The sort key `lambda c: c.score or 0.0` (line 71): a missing score counts
as 0 (and `0.0 or 0.0` is `0.0` either way). -/
def scoreKey (c : Candidate) : ℝ :=
  c.score.getD 0

open Classical in
/-- One step of the stable descending insertion sort: insert `c` (an earlier
input element) before the first element whose key is ≤ its own. -/
noncomputable def insertDesc (c : Candidate) : List Candidate → List Candidate
  | [] => [c]
  | x :: xs => if scoreKey x ≤ scoreKey c then c :: x :: xs else x :: insertDesc c xs

/-- Model of Python's stable `scored_candidates.sort(key=lambda c: c.score or 0.0,
reverse=True)` (line 71): stable sort, descending by score. -/
noncomputable def sortDesc : List Candidate → List Candidate
  | [] => []
  | x :: xs => insertDesc x (sortDesc xs)

/-- First pass of `rerank` (lines 43–48): raw feature vectors, with the whole
batch as corpus. -/
noncomputable def rawFeatures (cs : List Candidate) (query : String) : List FeatureVec :=
  cs.map (fun c => extract_features c query (some cs))

/-- Lines 50–56 of `rerank`: min-max normalize the `text_match` column and write
it back into the feature vectors. -/
noncomputable def updatedFeatures (cs : List Candidate) (query : String) : List FeatureVec :=
  List.zipWith (fun f v => { f with text_match := v })
    (rawFeatures cs query)
    (normalize_scores ((rawFeatures cs query).map FeatureVec.text_match))

/-- Lines 59–68 of `rerank`: the batch in input order, each candidate's score
assigned as the rounded weighted sum of its (text-match-normalized) features. -/
noncomputable def scoredList (r : Reranker) (cs : List Candidate) (query : String)
    (w : Option WeightMap) : List Candidate :=
  let nw := normalizeWeights (resolveWeights r w)
  List.zipWith (fun c f => setScore c (some (round4 (weightedScore nw f))))
    cs (updatedFeatures cs query)

open Classical in
/-- `Reranker.rerank`. The division `v / total_weight` in line 40 raises Python's
`ZeroDivisionError` exactly when the resolved weight map is non-empty and its
values sum to zero; that abnormal exit is modelled as `none`. -/
noncomputable def rerank (r : Reranker) (candidates : List Candidate) (query : String)
    (weights : Option WeightMap) : Option (List Candidate) :=
  let active := resolveWeights r weights
  if active ≠ [] ∧ weightsTotal active = 0 then none
  else some (sortDesc (scoredList r candidates query weights))

open Classical in
/-- The batch-normalized `text_match` value of one candidate: the min-max
normalization of its raw BM25 score within the batch's raw BM25 column
(elementwise closed form of `_normalize_scores` applied in `rerank` lines
50–56). -/
noncomputable def normTM (cs : List Candidate) (q : String) (c : Candidate) : ℝ :=
  let raw := cs.map (fun d => compute_bm25 d q (some cs))
  if listMax raw = listMin raw then 0.5
  else (compute_bm25 c q (some cs) - listMin raw) / (listMax raw - listMin raw)

/-- The feature vector of a candidate after the batch-wide `text_match`
normalization. -/
noncomputable def normFeatures (cs : List Candidate) (q : String) (c : Candidate) : FeatureVec :=
  { extract_features c q (some cs) with text_match := normTM cs q c }

/-- The rounded final score `rerank` assigns to candidate `c` of batch `cs`. -/
noncomputable def finalScore (r : Reranker) (w : Option WeightMap) (cs : List Candidate)
    (q : String) (c : Candidate) : ℝ :=
  round4 (weightedScore (normalizeWeights (resolveWeights r w)) (normFeatures cs q c))

/-! ### Helper lemmas about fold-based min/max -/

theorem foldl_min_le_init (a : ℝ) (l : List ℝ) : l.foldl min a ≤ a := by
  induction l generalizing a with
  | nil => exact le_refl a
  | cons y ys ih => exact le_trans (ih (min a y)) (min_le_left a y)

theorem foldl_min_le_mem (a x : ℝ) (l : List ℝ) (hx : x ∈ l) : l.foldl min a ≤ x := by
  induction l generalizing a with
  | nil => cases hx
  | cons y ys ih =>
    rcases List.mem_cons.mp hx with h | h
    · subst h
      exact le_trans (foldl_min_le_init (min a x) ys) (min_le_right a x)
    · exact ih (min a y) h

theorem foldl_min_mem (a : ℝ) (l : List ℝ) : l.foldl min a ∈ a :: l := by
  induction l generalizing a with
  | nil => exact List.mem_singleton.mpr rfl
  | cons y ys ih =>
    have h := ih (min a y)
    rcases List.mem_cons.mp h with h' | h'
    · rcases min_choice a y with hc | hc
      · exact List.mem_cons.mpr (Or.inl (h'.trans hc))
      · exact List.mem_cons.mpr (Or.inr (List.mem_cons.mpr (Or.inl (h'.trans hc))))
    · exact List.mem_cons.mpr (Or.inr (List.mem_cons.mpr (Or.inr h')))

theorem init_le_foldl_max (a : ℝ) (l : List ℝ) : a ≤ l.foldl max a := by
  induction l generalizing a with
  | nil => exact le_refl a
  | cons y ys ih => exact le_trans (le_max_left a y) (ih (max a y))

theorem mem_le_foldl_max (a x : ℝ) (l : List ℝ) (hx : x ∈ l) : x ≤ l.foldl max a := by
  induction l generalizing a with
  | nil => cases hx
  | cons y ys ih =>
    rcases List.mem_cons.mp hx with h | h
    · subst h
      exact le_trans (le_max_right a x) (init_le_foldl_max (max a x) ys)
    · exact ih (max a y) h

theorem foldl_max_mem (a : ℝ) (l : List ℝ) : l.foldl max a ∈ a :: l := by
  induction l generalizing a with
  | nil => exact List.mem_singleton.mpr rfl
  | cons y ys ih =>
    have h := ih (max a y)
    rcases List.mem_cons.mp h with h' | h'
    · rcases max_choice a y with hc | hc
      · exact List.mem_cons.mpr (Or.inl (h'.trans hc))
      · exact List.mem_cons.mpr (Or.inr (List.mem_cons.mpr (Or.inl (h'.trans hc))))
    · exact List.mem_cons.mpr (Or.inr (List.mem_cons.mpr (Or.inr h')))

theorem listMin_le (l : List ℝ) (x : ℝ) (hx : x ∈ l) : listMin l ≤ x := by
  cases l with
  | nil => cases hx
  | cons y ys =>
    rcases List.mem_cons.mp hx with h | h
    · subst h
      exact foldl_min_le_init x ys
    · exact foldl_min_le_mem y x ys h

theorem le_listMax (l : List ℝ) (x : ℝ) (hx : x ∈ l) : x ≤ listMax l := by
  cases l with
  | nil => cases hx
  | cons y ys =>
    rcases List.mem_cons.mp hx with h | h
    · subst h
      exact init_le_foldl_max x ys
    · exact mem_le_foldl_max y x ys h

theorem listMin_mem (l : List ℝ) (hl : l ≠ []) : listMin l ∈ l := by
  cases l with
  | nil => exact absurd rfl hl
  | cons y ys => exact foldl_min_mem y ys

theorem listMax_mem (l : List ℝ) (hl : l ≠ []) : listMax l ∈ l := by
  cases l with
  | nil => exact absurd rfl hl
  | cons y ys => exact foldl_max_mem y ys

theorem listMin_le_listMax (l : List ℝ) (hl : l ≠ []) : listMin l ≤ listMax l :=
  listMin_le l _ (listMax_mem l hl)

/-! ### Claim C6: the score normalizer -/

open Classical in
/-- Claim C6: for every list of real values, `normalize_scores` returns a
same-length list — `[]` for `[]`, all-0.5 when every value is equal, and
`(v - min) / (max - min)` elementwise otherwise — every output lying in
`[0, 1]`; in particular `normalize_scores [1,5,3] = [0.0, 1.0, 0.5]`,
`normalize_scores [5] = [0.5]` and `normalize_scores [] = []`. -/
theorem normalize_scores_spec (l : List ℝ) :
    (normalize_scores l).length = l.length ∧
    ((∀ x ∈ l, ∀ y ∈ l, x = y) → normalize_scores l = List.replicate l.length 0.5) ∧
    ((¬ ∀ x ∈ l, ∀ y ∈ l, x = y) →
      normalize_scores l = l.map (fun v => (v - listMin l) / (listMax l - listMin l))) ∧
    (∀ x ∈ normalize_scores l, 0 ≤ x ∧ x ≤ 1) ∧
    normalize_scores [(1 : ℝ), 5, 3] = [0, 1, 0.5] ∧
    normalize_scores [(5 : ℝ)] = [0.5] ∧
    normalize_scores ([] : List ℝ) = [] := by
  have hlen : (normalize_scores l).length = l.length := by
    cases l with
    | nil => rfl
    | cons x xs =>
      unfold normalize_scores
      by_cases h : listMax (x :: xs) = listMin (x :: xs)
      · simp [h]
      · simp [h]
  have hEqCase : (∀ x ∈ l, ∀ y ∈ l, x = y) →
      normalize_scores l = List.replicate l.length 0.5 := by
    intro hall
    cases l with
    | nil => rfl
    | cons x xs =>
      have hmx := listMax_mem (x :: xs) (by simp)
      have hmn := listMin_mem (x :: xs) (by simp)
      have heq : listMax (x :: xs) = listMin (x :: xs) := hall _ hmx _ hmn
      unfold normalize_scores
      simp [heq]
  have hNeCase : (¬ ∀ x ∈ l, ∀ y ∈ l, x = y) →
      normalize_scores l = l.map (fun v => (v - listMin l) / (listMax l - listMin l)) := by
    intro hne
    cases l with
    | nil => exact absurd (by simp) hne
    | cons x xs =>
      have hne' : listMax (x :: xs) ≠ listMin (x :: xs) := by
        intro heq
        apply hne
        intro a ha b hb
        have ha1 := le_listMax (x :: xs) a ha
        have ha2 := listMin_le (x :: xs) a ha
        have hb1 := le_listMax (x :: xs) b hb
        have hb2 := listMin_le (x :: xs) b hb
        rw [heq] at ha1 hb1
        linarith
      unfold normalize_scores
      simp [hne']
  have hbound : ∀ x ∈ normalize_scores l, 0 ≤ x ∧ x ≤ 1 := by
    intro x hx
    by_cases hall : ∀ x ∈ l, ∀ y ∈ l, x = y
    · rw [hEqCase hall] at hx
      have hx5 := List.eq_of_mem_replicate hx
      norm_num [hx5]
    · rw [hNeCase hall] at hx
      obtain ⟨v, hv, hvx⟩ := List.mem_map.mp hx
      have hlne : l ≠ [] := by
        rintro rfl
        exact hall (by simp)
      have hne' : listMax l ≠ listMin l := by
        intro heq
        apply hall
        intro a ha b hb
        have ha1 := le_listMax l a ha
        have ha2 := listMin_le l a ha
        have hb1 := le_listMax l b hb
        have hb2 := listMin_le l b hb
        rw [heq] at ha1 hb1
        linarith
      have hmn := listMin_le l v hv
      have hmx := le_listMax l v hv
      have hlt : listMin l < listMax l :=
        lt_of_le_of_ne (listMin_le_listMax l hlne) (Ne.symm hne')
      have hpos : (0 : ℝ) < listMax l - listMin l := by linarith
      subst hvx
      constructor
      · exact div_nonneg (by linarith) (le_of_lt hpos)
      · rw [div_le_one hpos]
        linarith
  refine ⟨hlen, hEqCase, hNeCase, hbound, ?_, ?_, rfl⟩
  · unfold normalize_scores
    norm_num [listMin, listMax, max_def, min_def]
  · unfold normalize_scores
    norm_num [listMin, listMax]

/-- Witness for C6: the implications of `normalize_scores_spec` are satisfiable;
at the not-all-equal batch `[1, 5, 3]` the elementwise min-max formula applies. -/
theorem normalize_scores_spec_witness :
    normalize_scores [(1 : ℝ), 5, 3] =
      [(1 : ℝ), 5, 3].map
        (fun v => (v - listMin [(1 : ℝ), 5, 3]) / (listMax [(1 : ℝ), 5, 3] - listMin [(1 : ℝ), 5, 3])) :=
  (normalize_scores_spec [(1 : ℝ), 5, 3]).2.2.1 (by
    intro h
    have h15 := h 1 (by norm_num) 5 (by norm_num)
    norm_num at h15)

/-! ### Claim C7: numeric feature formulas and ranges -/

/-- Claim C7: the price feature is 1.0 for price ≤ 0 and otherwise
`clamp(1 − ln(price+1)/ln(1001), 0, 1)`; the rating feature is `rating / 5`,
lying in [0,1] for ratings in [0,5]; the popularity feature is 0.0 for
num_reviews ≤ 0 and otherwise `min(1, ln(num_reviews+1)/ln(10001))`; each of
the three features lies in [0,1]. -/
theorem numeric_feature_spec (p r : ℝ) (n : ℤ) :
    (p ≤ 0 → normalize_price p = 1) ∧
    (0 < p → normalize_price p = max 0 (min 1 (1 - Real.log (p + 1) / Real.log 1001))) ∧
    (0 ≤ normalize_price p ∧ normalize_price p ≤ 1) ∧
    normalize_rating r = r / 5 ∧
    (0 ≤ r → r ≤ 5 → 0 ≤ normalize_rating r ∧ normalize_rating r ≤ 1) ∧
    (n ≤ 0 → normalize_popularity n = 0) ∧
    (0 < n → normalize_popularity n = min 1 (Real.log ((n : ℝ) + 1) / Real.log 10001)) ∧
    (0 ≤ normalize_popularity n ∧ normalize_popularity n ≤ 1) := by
  refine ⟨?_, ?_, ?_, rfl, ?_, ?_, ?_, ?_⟩
  · intro hp
    simp [normalize_price, hp]
  · intro hp
    rw [normalize_price, if_neg (not_le.mpr hp)]
    norm_num
  · unfold normalize_price
    by_cases hp : p ≤ 0
    · simp [hp]
    · rw [if_neg hp]
      refine ⟨le_max_left 0 _, ?_⟩
      exact max_le zero_le_one (min_le_left 1 _)
  · intro h0 h5
    unfold normalize_rating
    constructor
    · exact div_nonneg h0 (by norm_num)
    · rw [div_le_one (by norm_num : (0 : ℝ) < 5)]
      exact h5
  · intro hn
    simp [normalize_popularity, hn]
  · intro hn
    rw [normalize_popularity, if_neg (not_le.mpr hn)]
    norm_num
  · unfold normalize_popularity
    by_cases hn : n ≤ 0
    · simp [hn]
    · rw [if_neg hn]
      refine ⟨le_min zero_le_one ?_, min_le_left 1 _⟩
      apply div_nonneg
      · apply Real.log_nonneg
        have h1 : (1 : ℝ) ≤ (n : ℝ) := by
          exact_mod_cast (by omega : (1 : ℤ) ≤ n)
        linarith
      · apply Real.log_nonneg
        norm_num

/-- Witness for C7: the guarded clauses of `numeric_feature_spec` hold at the
concrete inputs price 10, rating 4.5, num_reviews 100. -/
theorem numeric_feature_spec_witness :
    normalize_price 10 = max 0 (min 1 (1 - Real.log (10 + 1) / Real.log 1001)) ∧
    (0 ≤ normalize_rating 4.5 ∧ normalize_rating 4.5 ≤ 1) ∧
    normalize_popularity 100 = min 1 (Real.log (((100 : ℤ) : ℝ) + 1) / Real.log 10001) :=
  ⟨(numeric_feature_spec 10 4.5 100).2.1 (by norm_num),
   (numeric_feature_spec 10 4.5 100).2.2.2.2.1 (by norm_num) (by norm_num),
   (numeric_feature_spec 10 4.5 100).2.2.2.2.2.2.1 (by norm_num)⟩

/-! ### Claim C8: strict antitonicity of idf in document frequency -/

/-- Claim C8: for a fixed corpus, a term with strictly smaller document
frequency gets a strictly larger idf value than a term with larger document
frequency. -/
theorem idf_strict_anti (cs : List Candidate) (t1 t2 : String)
    (h : docFreq t1 cs < docFreq t2 cs) :
    compute_idf cs.length (docFreq t2 cs) < compute_idf cs.length (docFreq t1 cs) := by
  set N := cs.length
  set d1 := docFreq t1 cs
  set d2 := docFreq t2 cs
  have key : ∀ d : ℕ, ((N : ℝ) - (d : ℝ) + 0.5) / ((d : ℝ) + 0.5) + 1 =
      ((N : ℝ) + 1) / ((d : ℝ) + 0.5) := by
    intro d
    have hd : ((d : ℝ) + 0.5) ≠ 0 := by positivity
    field_simp
    ring
  unfold compute_idf
  rw [key d1, key d2]
  have hN : (0 : ℝ) < (N : ℝ) + 1 := by positivity
  have hd1 : (0 : ℝ) < (d1 : ℝ) + 0.5 := by positivity
  have hd2 : (0 : ℝ) < (d2 : ℝ) + 0.5 := by positivity
  have hdd : (d1 : ℝ) + 0.5 < (d2 : ℝ) + 0.5 := by
    have : (d1 : ℝ) < (d2 : ℝ) := by exact_mod_cast h
    linarith
  have hfrac : ((N : ℝ) + 1) / ((d2 : ℝ) + 0.5) < ((N : ℝ) + 1) / ((d1 : ℝ) + 0.5) :=
    div_lt_div_of_pos_left hN hd1 hdd
  exact Real.log_lt_log (div_pos hN hd2) hfrac

/-- Witness for C8: among the three concrete candidates below, "alpha" occurs in
one document and "beta" in all three, and the idf of "alpha" is strictly larger. -/
theorem idf_strict_anti_witness :
    docFreq "alpha" [⟨"1", "alpha beta", "", "x", 10, 4.5, 100, none⟩,
                     ⟨"2", "Beta", "c", "x", 15.99, 3.5, 50, none⟩,
                     ⟨"3", "beta", "", "x", 299, 4.8, 500, none⟩] <
      docFreq "beta" [⟨"1", "alpha beta", "", "x", 10, 4.5, 100, none⟩,
                      ⟨"2", "Beta", "c", "x", 15.99, 3.5, 50, none⟩,
                      ⟨"3", "beta", "", "x", 299, 4.8, 500, none⟩] ∧
    compute_idf 3 3 < compute_idf 3 1 := by
  constructor
  · decide
  · have h := idf_strict_anti
      [⟨"1", "alpha beta", "", "x", 10, 4.5, 100, none⟩,
       ⟨"2", "Beta", "c", "x", 15.99, 3.5, 50, none⟩,
       ⟨"3", "beta", "", "x", 299, 4.8, 500, none⟩] "alpha" "beta" (by decide)
    have e1 : docFreq "alpha" [⟨"1", "alpha beta", "", "x", 10, 4.5, 100, none⟩,
       ⟨"2", "Beta", "c", "x", 15.99, 3.5, 50, none⟩,
       ⟨"3", "beta", "", "x", 299, 4.8, 500, none⟩] = 1 := by decide
    have e2 : docFreq "beta" [⟨"1", "alpha beta", "", "x", 10, 4.5, 100, none⟩,
       ⟨"2", "Beta", "c", "x", 15.99, 3.5, 50, none⟩,
       ⟨"3", "beta", "", "x", 299, 4.8, 500, none⟩] = 3 := by decide
    rw [e1, e2] at h
    simpa using h

/-! ### Claim C5: overlap fallback of the lexical scorer -/

/-- Claim C5: with an absent corpus or a corpus of fewer than 2 candidates, the
lexical score is the overlap ratio `|query ∩ (title ∪ description)| / |query|`
on term sets, and 0.0 when the query has no terms or the title∪description term
set is empty. -/
theorem bm25_fallback_spec (c : Candidate) (q : String) (co : Option (List Candidate))
    (h : co = none ∨ ∃ cs, co = some cs ∧ cs.length < 2) :
    compute_bm25 c q co =
      if (tokenize q).toFinset = ∅ ∨
          (tokenize c.title).toFinset ∪ (tokenize c.description).toFinset = ∅ then 0
      else (((tokenize q).toFinset ∩
              ((tokenize c.title).toFinset ∪ (tokenize c.description).toFinset)).card : ℝ) /
            (((tokenize q).toFinset.card : ℝ)) := by
  have htm : compute_text_match c q =
      (if (tokenize q).toFinset = ∅ ∨
          (tokenize c.title).toFinset ∪ (tokenize c.description).toFinset = ∅ then 0
      else (((tokenize q).toFinset ∩
              ((tokenize c.title).toFinset ∪ (tokenize c.description).toFinset)).card : ℝ) /
            (((tokenize q).toFinset.card : ℝ))) := rfl
  rcases h with h | ⟨cs, hco, hlen⟩
  · subst h
    exact htm
  · subst hco
    simp only [compute_bm25]
    rw [if_pos hlen]
    exact htm

/-- Witness for C5: the fallback formula evaluated with no corpus at a concrete
candidate and query. -/
theorem bm25_fallback_spec_witness :
    compute_bm25 ⟨"1", "a", "", "x", 1, 1, 1, none⟩ "a" none =
      if (tokenize "a").toFinset = ∅ ∨
          (tokenize "a").toFinset ∪ (tokenize "").toFinset = ∅ then 0
      else (((tokenize "a").toFinset ∩
              ((tokenize "a").toFinset ∪ (tokenize "").toFinset)).card : ℝ) /
            (((tokenize "a").toFinset.card : ℝ)) :=
  bm25_fallback_spec ⟨"1", "a", "", "x", 1, 1, 1, none⟩ "a" none (Or.inl rfl)

/-! ### Claim C3: the BM25 formula -/

/-- Claim C3: with a corpus of at least 2 candidates, the lexical score is the
BM25 sum over query terms of `idf(t) * tf*(k1+1) / (tf + k1*(1 − b + b*(doclen/avgdl)))`
with k1 = 1.5, b = 0.75, `idf(t) = ln((N − df(t) + 0.5)/(df(t) + 0.5) + 1)`,
N the corpus size, df presence counts, avgdl the mean tokenized document length;
terms absent from the document contribute 0, and the score is 0.0 when the
query or the candidate's document tokenizes to nothing. -/
theorem bm25_formula_spec (c : Candidate) (q : String) (cs : List Candidate)
    (h : 2 ≤ cs.length) :
    compute_bm25 c q (some cs) =
      if tokenize q = [] ∨ tokenize (docText c) = [] then 0
      else ((tokenize q).map (fun t =>
        Real.log (((cs.length : ℝ) - (docFreq t cs : ℝ) + 0.5) /
            ((docFreq t cs : ℝ) + 0.5) + 1) *
          ((termFreq (tokenize (docText c)) t : ℝ) * (1.5 + 1)) /
          ((termFreq (tokenize (docText c)) t : ℝ) +
            1.5 * (1 - 0.75 + 0.75 * (((tokenize (docText c)).length : ℝ) /
              ((cs.map (fun d => ((tokenize (docText d)).length : ℝ))).sum /
                (cs.length : ℝ))))))).sum := by
  simp only [compute_bm25]
  rw [if_neg (not_lt.mpr h)]
  by_cases hq : tokenize q = []
  · simp [hq]
  · by_cases hd : tokenize (docText c) = []
    · simp [hq, hd]
    · simp only [hq, hd, if_false, if_neg, or_self, or_false, false_or,
        if_neg (show ¬(tokenize q = [] ∨ tokenize (docText c) = []) by tauto)]
      simp only [List.map_map, List.length_map]
      refine congrArg List.sum (List.map_congr_left ?_)
      intro t ht
      by_cases htf : 0 < termFreq (tokenize (docText c)) t
      · rw [if_pos htf]
        unfold compute_idf
        simp only [Function.comp_def]
        exact (mul_div_assoc _ _ _).symm
      · rw [if_neg htf]
        have h0 : termFreq (tokenize (docText c)) t = 0 := Nat.eq_zero_of_not_pos htf
        rw [h0]
        norm_num

/-- Witness for C3: the BM25 formula instantiated over the concrete 2-candidate
corpus below. -/
theorem bm25_formula_spec_witness :
    compute_bm25 ⟨"0", "a", "", "x", 1, 1, 1, none⟩ "a"
        (some [⟨"1", "a b", "", "x", 1, 1, 1, none⟩, ⟨"2", "b", "", "x", 1, 1, 1, none⟩]) =
      if tokenize "a" = [] ∨ tokenize (docText ⟨"0", "a", "", "x", 1, 1, 1, none⟩) = [] then 0
      else ((tokenize "a").map (fun t =>
        Real.log ((((List.length [(⟨"1", "a b", "", "x", 1, 1, 1, none⟩ : Candidate),
              ⟨"2", "b", "", "x", 1, 1, 1, none⟩] : ℕ) : ℝ) -
              (docFreq t [⟨"1", "a b", "", "x", 1, 1, 1, none⟩,
                ⟨"2", "b", "", "x", 1, 1, 1, none⟩] : ℝ) + 0.5) /
            ((docFreq t [⟨"1", "a b", "", "x", 1, 1, 1, none⟩,
                ⟨"2", "b", "", "x", 1, 1, 1, none⟩] : ℝ) + 0.5) + 1) *
          ((termFreq (tokenize (docText ⟨"0", "a", "", "x", 1, 1, 1, none⟩)) t : ℝ) * (1.5 + 1)) /
          ((termFreq (tokenize (docText ⟨"0", "a", "", "x", 1, 1, 1, none⟩)) t : ℝ) +
            1.5 * (1 - 0.75 + 0.75 *
              (((tokenize (docText ⟨"0", "a", "", "x", 1, 1, 1, none⟩)).length : ℝ) /
              (([(⟨"1", "a b", "", "x", 1, 1, 1, none⟩ : Candidate),
                  ⟨"2", "b", "", "x", 1, 1, 1, none⟩].map
                  (fun d => ((tokenize (docText d)).length : ℝ))).sum /
                ((List.length [(⟨"1", "a b", "", "x", 1, 1, 1, none⟩ : Candidate),
                  ⟨"2", "b", "", "x", 1, 1, 1, none⟩] : ℕ) : ℝ))))))).sum :=
  bm25_formula_spec ⟨"0", "a", "", "x", 1, 1, 1, none⟩ "a"
    [⟨"1", "a b", "", "x", 1, 1, 1, none⟩, ⟨"2", "b", "", "x", 1, 1, 1, none⟩] (by decide)

/-! ### Helper lemmas about `rerank`'s control flow -/

theorem rerank_eq_of_ok (r : Reranker) (cs : List Candidate) (q : String)
    (w : Option WeightMap)
    (h : ¬(resolveWeights r w ≠ [] ∧ weightsTotal (resolveWeights r w) = 0)) :
    rerank r cs q w = some (sortDesc (scoredList r cs q w)) := by
  unfold rerank
  rw [if_neg h]

theorem of_rerank_eq_some (r : Reranker) (cs : List Candidate) (q : String)
    (w : Option WeightMap) (out : List Candidate) (h : rerank r cs q w = some out) :
    out = sortDesc (scoredList r cs q w) ∧
    ¬(resolveWeights r w ≠ [] ∧ weightsTotal (resolveWeights r w) = 0) := by
  unfold rerank at h
  by_cases hc : resolveWeights r w ≠ [] ∧ weightsTotal (resolveWeights r w) = 0
  · rw [if_pos hc] at h
    cases h
  · rw [if_neg hc] at h
    exact ⟨(Option.some_injective _ h).symm, hc⟩

/-! ### Claim C1 (corrected): weight validation -/

/-- Counterexample for C1 as stated: a weight map containing a negative value
(here price → −1) whose values do not sum to zero is not rejected — `rerank`
succeeds; no `InvalidWeights` validation exists in the code. -/
theorem weight_validation_counterexample :
    (rerank (mkReranker none) [] "wireless"
      (some [("price", -1), ("rating", 3)])).isSome = true := by
  rw [rerank_eq_of_ok]
  · rfl
  · intro hc
    have h2 := hc.2
    norm_num [resolveWeights, weightsTotal] at h2

/-- Claim C1, amended: calling `rerank` with a non-empty weight map whose values
sum to zero fails (Python `ZeroDivisionError`, modelled as `none`) before any
candidate's score is assigned; but a weight map whose values sum to a nonzero
total — even one containing negative values — is not rejected: the call
succeeds. -/
theorem weight_validation_amended (r : Reranker) (cs : List Candidate) (q : String)
    (w : WeightMap) (hw : w ≠ []) :
    (weightsTotal w = 0 → rerank r cs q (some w) = none) ∧
    (weightsTotal w ≠ 0 → (rerank r cs q (some w)).isSome = true) := by
  obtain ⟨p, l, rfl⟩ := List.exists_cons_of_ne_nil hw
  have hres : resolveWeights r (some (p :: l)) = p :: l := rfl
  constructor
  · intro h0
    unfold rerank
    rw [if_pos]
    rw [hres]
    exact ⟨List.cons_ne_nil p l, h0⟩
  · intro hne
    rw [rerank_eq_of_ok]
    · rfl
    · rw [hres]
      intro hc
      exact hne hc.2

/-- Witness for C1's amended theorem: the non-empty weight map
`[("price", -1), ("rating", 3)]` sums to 2 ≠ 0 and is accepted. -/
theorem weight_validation_amended_witness :
    (rerank (mkReranker none) [⟨"1", "a", "", "x", 1, 1, 1, none⟩] "a"
      (some [("price", -1), ("rating", 3)])).isSome = true :=
  (weight_validation_amended (mkReranker none) [⟨"1", "a", "", "x", 1, 1, 1, none⟩] "a"
    [("price", -1), ("rating", 3)] (by simp)).2
    (by norm_num [weightsTotal])

/-! ### Claim C10: an empty weight map falls back to the defaults -/

/-- Claim C10: calling `rerank` with an empty weight map behaves exactly like
calling it with no weights: the configured default weights are used and no
error occurs, despite the empty map's weights summing to zero. -/
theorem empty_weight_map_uses_defaults (cs : List Candidate) (q : String) :
    rerank (mkReranker none) cs q (some []) = rerank (mkReranker none) cs q none ∧
    (rerank (mkReranker none) cs q (some [])).isSome = true := by
  constructor
  · rfl
  · rw [rerank_eq_of_ok]
    · rfl
    · intro hc
      have h2 := hc.2
      norm_num [resolveWeights, weightsTotal, mkReranker, standardDefaultWeights] at h2

/-! ### Properties of the stable descending insertion sort -/

theorem insertDesc_perm (c : Candidate) (l : List Candidate) :
    (insertDesc c l).Perm (c :: l) := by
  induction l with
  | nil => exact List.Perm.refl _
  | cons x xs ih =>
    unfold insertDesc
    by_cases h : scoreKey x ≤ scoreKey c
    · rw [if_pos h]
    · rw [if_neg h]
      exact (ih.cons x).trans (List.Perm.swap c x xs)

theorem sortDesc_perm (l : List Candidate) : (sortDesc l).Perm l := by
  induction l with
  | nil => exact List.Perm.refl _
  | cons x xs ih =>
    exact (insertDesc_perm x (sortDesc xs)).trans (ih.cons x)

theorem insertDesc_pairwise (c : Candidate) (l : List Candidate)
    (hl : l.Pairwise (fun a b => scoreKey b ≤ scoreKey a)) :
    (insertDesc c l).Pairwise (fun a b => scoreKey b ≤ scoreKey a) := by
  induction l with
  | nil => simp [insertDesc]
  | cons x xs ih =>
    obtain ⟨hx, hxs⟩ := List.pairwise_cons.mp hl
    unfold insertDesc
    by_cases h : scoreKey x ≤ scoreKey c
    · rw [if_pos h]
      refine List.pairwise_cons.mpr ⟨?_, hl⟩
      intro b hb
      rcases List.mem_cons.mp hb with rfl | hbxs
      · exact h
      · exact (hx b hbxs).trans h
    · rw [if_neg h]
      refine List.pairwise_cons.mpr ⟨?_, ih hxs⟩
      intro b hb
      have hb' := (insertDesc_perm c xs).mem_iff.mp hb
      rcases List.mem_cons.mp hb' with rfl | hbxs
      · exact le_of_lt (not_le.mp h)
      · exact hx b hbxs

theorem sortDesc_pairwise (l : List Candidate) :
    (sortDesc l).Pairwise (fun a b => scoreKey b ≤ scoreKey a) := by
  induction l with
  | nil => simp [sortDesc]
  | cons x xs ih => exact insertDesc_pairwise x (sortDesc xs) ih

theorem insertDesc_of_forall_le (c : Candidate) (l : List Candidate)
    (h : ∀ y ∈ l, scoreKey y ≤ scoreKey c) : insertDesc c l = c :: l := by
  cases l with
  | nil => rfl
  | cons x xs =>
    unfold insertDesc
    rw [if_pos (h x (List.mem_cons_self x xs))]

theorem sortDesc_eq_of_sorted (l : List Candidate)
    (hl : l.Pairwise (fun a b => scoreKey b ≤ scoreKey a)) : sortDesc l = l := by
  induction l with
  | nil => rfl
  | cons x xs ih =>
    obtain ⟨hx, hxs⟩ := List.pairwise_cons.mp hl
    show insertDesc x (sortDesc xs) = x :: xs
    rw [ih hxs]
    exact insertDesc_of_forall_le x xs hx

open Classical in
theorem filter_insertDesc_eq (c : Candidate) (l : List Candidate) (v : ℝ)
    (hc : scoreKey c = v) :
    (insertDesc c l).filter (fun x => decide (scoreKey x = v)) =
      c :: l.filter (fun x => decide (scoreKey x = v)) := by
  induction l with
  | nil => simp [insertDesc, hc]
  | cons x xs ih =>
    unfold insertDesc
    by_cases h : scoreKey x ≤ scoreKey c
    · rw [if_pos h]
      rw [List.filter_cons_of_pos (by simp [hc])]
    · rw [if_neg h]
      have hxv : ¬(scoreKey x = v) := by
        intro he
        exact h (le_of_eq (hc.symm ▸ he : scoreKey x = scoreKey c))
      rw [List.filter_cons_of_neg (by simp [hxv]), ih,
        List.filter_cons_of_neg (by simp [hxv])]

open Classical in
theorem filter_insertDesc_ne (c : Candidate) (l : List Candidate) (v : ℝ)
    (hc : ¬(scoreKey c = v)) :
    (insertDesc c l).filter (fun x => decide (scoreKey x = v)) =
      l.filter (fun x => decide (scoreKey x = v)) := by
  induction l with
  | nil => simp [insertDesc, hc]
  | cons x xs ih =>
    unfold insertDesc
    by_cases h : scoreKey x ≤ scoreKey c
    · rw [if_pos h]
      rw [List.filter_cons_of_neg (by simp [hc])]
    · rw [if_neg h]
      by_cases hx : scoreKey x = v
      · rw [List.filter_cons_of_pos (by simp [hx]), ih,
          List.filter_cons_of_pos (by simp [hx])]
      · rw [List.filter_cons_of_neg (by simp [hx]), ih,
          List.filter_cons_of_neg (by simp [hx])]

open Classical in
theorem sortDesc_filter (l : List Candidate) (v : ℝ) :
    (sortDesc l).filter (fun x => decide (scoreKey x = v)) =
      l.filter (fun x => decide (scoreKey x = v)) := by
  induction l with
  | nil => rfl
  | cons x xs ih =>
    show (insertDesc x (sortDesc xs)).filter _ = _
    by_cases hx : scoreKey x = v
    · rw [filter_insertDesc_eq x (sortDesc xs) v hx, ih,
        List.filter_cons_of_pos (by simp [hx])]
    · rw [filter_insertDesc_ne x (sortDesc xs) v hx, ih,
        List.filter_cons_of_neg (by simp [hx])]

/-! ### Closed form of the scoring pipeline -/

theorem map_const_eq_replicate {α : Type} (l : List α) (a : ℝ) :
    l.map (fun _ => a) = List.replicate l.length a := by
  induction l with
  | nil => rfl
  | cons x xs ih => simp [ih, List.replicate_succ]

theorem zipWith_map_same {α β γ δ : Type} (f : α → β) (g : α → γ) (h : β → γ → δ)
    (l : List α) :
    List.zipWith h (l.map f) (l.map g) = l.map (fun x => h (f x) (g x)) := by
  induction l with
  | nil => rfl
  | cons x xs ih => simp [ih]

theorem zipWith_map_right_same {α γ δ : Type} (g : α → γ) (h : α → γ → δ) (l : List α) :
    List.zipWith h l (l.map g) = l.map (fun x => h x (g x)) := by
  induction l with
  | nil => rfl
  | cons x xs ih => simp [ih]

open Classical in
theorem normalize_scores_map (f : Candidate → ℝ) (l : List Candidate) :
    normalize_scores (l.map f) =
      l.map (fun x => if listMax (l.map f) = listMin (l.map f) then (0.5 : ℝ)
        else (f x - listMin (l.map f)) / (listMax (l.map f) - listMin (l.map f))) := by
  cases l with
  | nil => rfl
  | cons a as =>
    rw [List.map_cons]
    unfold normalize_scores
    by_cases h : listMax (f a :: List.map f as) = listMin (f a :: List.map f as)
    · simp only [h, if_true, eq_self_iff_true]
      rw [← List.map_cons f a as, ← map_const_eq_replicate ((a :: as).map f) 0.5]
      simp [List.map_map, Function.comp_def]
    · simp only [h, if_false]
      rw [← List.map_cons f a as]
      simp [List.map_map, Function.comp_def]

theorem updatedFeatures_eq_map (cs : List Candidate) (q : String) :
    updatedFeatures cs q = cs.map (fun c => normFeatures cs q c) := by
  unfold updatedFeatures rawFeatures
  have hbm : (cs.map (fun c => extract_features c q (some cs))).map FeatureVec.text_match
      = cs.map (fun d => compute_bm25 d q (some cs)) := by
    simp [List.map_map, Function.comp_def, extract_features]
  rw [hbm, normalize_scores_map, zipWith_map_same]
  rfl

theorem scoredList_eq_map (r : Reranker) (cs : List Candidate) (q : String)
    (w : Option WeightMap) :
    scoredList r cs q w = cs.map (fun c => setScore c (some (finalScore r w cs q c))) := by
  unfold scoredList finalScore
  rw [updatedFeatures_eq_map, zipWith_map_right_same]

/-! ### Claim C2: rerank returns the whole batch, stably sorted by score -/

open Classical in
/-- Claim C2: when `rerank` succeeds, it returns exactly the input candidates
(none dropped, none added — a permutation of the score-assigned batch, equal to
the input batch once scores are erased), sorted by assigned score in descending
order, with candidates of equal score kept in their original relative input
order (the filter by each score value coincides with the input-order scored
list), and an empty batch yields an empty batch. -/
theorem rerank_output_spec (r : Reranker) (cs : List Candidate) (q : String)
    (w : Option WeightMap) (out : List Candidate) (h : rerank r cs q w = some out) :
    out.Perm (scoredList r cs q w) ∧
    (out.map (fun c => setScore c none)).Perm (cs.map (fun c => setScore c none)) ∧
    out.Pairwise (fun a b => scoreKey b ≤ scoreKey a) ∧
    (∀ v : ℝ, out.filter (fun x => decide (scoreKey x = v)) =
      (scoredList r cs q w).filter (fun x => decide (scoreKey x = v))) ∧
    (cs = [] → out = []) := by
  obtain ⟨hout, -⟩ := of_rerank_eq_some r cs q w out h
  subst hout
  refine ⟨sortDesc_perm _, ?_, sortDesc_pairwise _, fun v => sortDesc_filter _ v, ?_⟩
  · have h1 := (sortDesc_perm (scoredList r cs q w)).map (fun c => setScore c none)
    have h2 : (scoredList r cs q w).map (fun c => setScore c none) =
        cs.map (fun c => setScore c none) := by
      rw [scoredList_eq_map, List.map_map]
      rfl
    rw [h2] at h1
    exact h1
  · intro hcs
    subst hcs
    rfl

/-- Witness for C2: `rerank` with default weights on the empty batch succeeds
and returns the empty batch, satisfying every clause of `rerank_output_spec`. -/
theorem rerank_output_spec_witness :
    ([] : List Candidate).Perm (scoredList (mkReranker none) [] "b" none) ∧
    (([] : List Candidate).map (fun c => setScore c none)).Perm
      (([] : List Candidate).map (fun c => setScore c none)) ∧
    ([] : List Candidate).Pairwise (fun a b => scoreKey b ≤ scoreKey a) ∧
    (∀ v : ℝ, ([] : List Candidate).filter (fun x => decide (scoreKey x = v)) =
      (scoredList (mkReranker none) [] "b" none).filter
        (fun x => decide (scoreKey x = v))) ∧
    (([] : List Candidate) = [] → ([] : List Candidate) = []) :=
  rerank_output_spec (mkReranker none) [] "b" none []
    (by
      rw [rerank_eq_of_ok]
      · rfl
      · intro hc
        exact absurd hc.2
          (by norm_num [resolveWeights, mkReranker, standardDefaultWeights, weightsTotal]))

/-! ### Claim C4: weight normalization and the weighted-sum score -/

open Classical in
/-- Claim C4: for a non-empty batch and a resolved weight map with nonzero
total, `rerank` normalizes the weight map so its values sum to 1 and assigns
each candidate the score `Σ_feature weight[feature] * feature_value[feature]`
over the normalized map (with the batch-normalized `text_match` value; features
absent from the feature vector contribute 0 via `featureGet`), rounded to 4
decimal digits. -/
theorem rerank_score_formula (r : Reranker) (cs : List Candidate) (q : String)
    (w : Option WeightMap) (h1 : cs ≠ [])
    (h2 : weightsTotal (resolveWeights r w) ≠ 0) :
    weightsTotal (normalizeWeights (resolveWeights r w)) = 1 ∧
    rerank r cs q w = some (sortDesc (cs.map (fun c => setScore c (some (round4
      (((normalizeWeights (resolveWeights r w)).map
        (fun p => p.2 * featureGet (normFeatures cs q c) p.1)).sum)))))) := by
  constructor
  · have hdiv : ∀ (l : WeightMap) (T : ℝ),
        ((l.map (fun p => (p.1, p.2 / T))).map Prod.snd).sum = (l.map Prod.snd).sum / T := by
      intro l T
      induction l with
      | nil => simp
      | cons p ps ih =>
        simp only [Function.comp_def, List.map_map, List.map_cons, List.sum_cons] at ih ⊢
        rw [ih, add_div]
    unfold weightsTotal normalizeWeights
    rw [hdiv]
    exact div_self h2
  · rw [rerank_eq_of_ok r cs q w (fun hc => h2 hc.2)]
    have hws : ∀ (nw : WeightMap) (f : FeatureVec),
        weightedScore nw f = (nw.map (fun p => p.2 * featureGet f p.1)).sum := by
      intro nw f
      unfold weightedScore
      induction nw with
      | nil => rfl
      | cons p ps ih => simp [ih, mul_comm]
    rw [scoredList_eq_map]
    refine congrArg (fun l => some (sortDesc l)) (List.map_congr_left ?_)
    intro c hc
    unfold finalScore
    rw [hws]

/-- Witness for C4: with the standard default weights (total 1 ≠ 0) and a
one-candidate batch, the normalized weights sum to 1. -/
theorem rerank_score_formula_witness :
    weightsTotal (normalizeWeights (resolveWeights (mkReranker none) none)) = 1 :=
  (rerank_score_formula (mkReranker none) [⟨"1", "a", "", "x", 1, 1, 1, none⟩] "a" none
    (by simp)
    (by norm_num [resolveWeights, mkReranker, standardDefaultWeights, weightsTotal])).1

/-! ### Permutation invariance of the corpus statistics -/

theorem listMin_perm (l1 l2 : List ℝ) (h : l1.Perm l2) : listMin l1 = listMin l2 := by
  by_cases h1 : l1 = []
  · subst h1
    rw [← h.nil_eq]
  · have h2 : l2 ≠ [] := by
      intro he
      subst he
      exact h1 h.eq_nil
    exact le_antisymm
      (listMin_le _ _ (h.mem_iff.mpr (listMin_mem l2 h2)))
      (listMin_le _ _ (h.mem_iff.mp (listMin_mem l1 h1)))

theorem listMax_perm (l1 l2 : List ℝ) (h : l1.Perm l2) : listMax l1 = listMax l2 := by
  by_cases h1 : l1 = []
  · subst h1
    rw [← h.nil_eq]
  · have h2 : l2 ≠ [] := by
      intro he
      subst he
      exact h1 h.eq_nil
    exact le_antisymm
      (le_listMax _ _ (h.mem_iff.mp (listMax_mem l1 h1)))
      (le_listMax _ _ (h.mem_iff.mpr (listMax_mem l2 h2)))

theorem docFreq_congr (t : String) (L1 L2 : List Candidate)
    (hp : (L1.map docText).Perm (L2.map docText)) : docFreq t L1 = docFreq t L2 := by
  unfold docFreq
  rw [show (fun c => decide (t ∈ tokenize (docText c))) =
      ((fun s => decide (t ∈ tokenize s)) ∘ docText) from rfl]
  rw [← List.countP_map, ← List.countP_map]
  exact hp.countP_eq _

theorem doclen_sum_congr (L1 L2 : List Candidate)
    (hp : (L1.map docText).Perm (L2.map docText)) :
    ((L1.map (fun cand => tokenize (docText cand))).map (fun doc => (doc.length : ℝ))).sum =
      ((L2.map (fun cand => tokenize (docText cand))).map (fun doc => (doc.length : ℝ))).sum := by
  have key : ∀ L : List Candidate,
      ((L.map (fun cand => tokenize (docText cand))).map (fun doc => (doc.length : ℝ))).sum =
        ((L.map docText).map (fun s => ((tokenize s).length : ℝ))).sum := by
    intro L
    rw [List.map_map, List.map_map]
    rfl
  rw [key, key]
  exact (hp.map _).sum_eq

theorem compute_bm25_congr (c : Candidate) (q : String) (L1 L2 : List Candidate)
    (hp : (L1.map docText).Perm (L2.map docText)) :
    compute_bm25 c q (some L1) = compute_bm25 c q (some L2) := by
  have hlen : L1.length = L2.length := by
    have := hp.length_eq
    simpa using this
  have hdf : ∀ t, docFreq t L1 = docFreq t L2 := fun t => docFreq_congr t L1 L2 hp
  have hsum := doclen_sum_congr L1 L2 hp
  simp only [compute_bm25, List.length_map]
  rw [hlen, hsum]
  simp only [hdf]

/-! ### Claim C9: rerank is idempotent -/

/-- Claim C9: reranking the output of `rerank` again, with the same query and
weights, returns it unchanged — same assigned scores and same ordering. The
output candidates differ from the inputs only in their `score` field, and no
extracted feature (nor any corpus statistic) depends on that field, so every
score is recomputed identically and the stable sort leaves the already-sorted
batch fixed. -/
theorem rerank_idempotent (r : Reranker) (cs : List Candidate) (q : String)
    (w : Option WeightMap) (out : List Candidate) (h : rerank r cs q w = some out) :
    rerank r out q w = some out := by
  obtain ⟨hout, hc⟩ := of_rerank_eq_some r cs q w out h
  have hperm : out.Perm (scoredList r cs q w) := by
    rw [hout]
    exact sortDesc_perm _
  have hdocs : (out.map docText).Perm (cs.map docText) := by
    have h1 := hperm.map docText
    rw [scoredList_eq_map, List.map_map] at h1
    exact h1
  have hbm : ∀ d, compute_bm25 d q (some out) = compute_bm25 d q (some cs) :=
    fun d => compute_bm25_congr d q out cs hdocs
  have hrawperm : (out.map (fun d => compute_bm25 d q (some cs))).Perm
      (cs.map (fun d => compute_bm25 d q (some cs))) := by
    have h1 := hperm.map (fun d => compute_bm25 d q (some cs))
    rw [scoredList_eq_map, List.map_map] at h1
    exact h1
  have hnormTM : ∀ d, normTM out q d = normTM cs q d := by
    intro d
    unfold normTM
    simp only [hbm]
    rw [listMin_perm _ _ hrawperm, listMax_perm _ _ hrawperm]
  have hfin : ∀ d, finalScore r w out q d = finalScore r w cs q d := by
    intro d
    unfold finalScore normFeatures
    rw [hnormTM d]
    rfl
  have hsl : scoredList r out q w = out := by
    rw [scoredList_eq_map]
    have hfix : ∀ d ∈ out, setScore d (some (finalScore r w out q d)) = d := by
      intro d hd
      rw [hfin d]
      have hdS : d ∈ scoredList r cs q w := hperm.subset hd
      rw [scoredList_eq_map] at hdS
      obtain ⟨d0, hd0, rfl⟩ := List.mem_map.mp hdS
      rfl
    rw [List.map_congr_left hfix]
    exact List.map_id out
  have hsorted : out.Pairwise (fun a b => scoreKey b ≤ scoreKey a) := by
    rw [hout]
    exact sortDesc_pairwise _
  rw [rerank_eq_of_ok r out q w hc, hsl, sortDesc_eq_of_sorted out hsorted]

/-- Witness for C9: `rerank` with default weights succeeds on the empty batch
(returning `some []`), and reranking that output returns it unchanged. -/
theorem rerank_idempotent_witness :
    rerank (mkReranker none) [] "a" none = some [] :=
  rerank_idempotent (mkReranker none) [] "a" none []
    (by
      rw [rerank_eq_of_ok]
      · rfl
      · intro hcon
        exact absurd hcon.2
          (by norm_num [resolveWeights, mkReranker, standardDefaultWeights, weightsTotal]))

end HybridSearch
